import Mathlib

/-!
Verification of the rachat layered configuration subsystem.

This file gives a shallow embedding of the configuration code:

- `JValue` models `serde_json::Value` (the recursive document value type);
- `flatten` / `deserialize` model `rachat-config/src/de.rs` (nested value
  to dotted-path flat map);
- `insertVal` / `serialize` model `src/config/ser.rs` (flat map back to a
  nested value, failing on path conflicts);
- `FCState` and its operations model the bookkeeping state of
  `rachat-config/src/file_config.rs` (`FileConfig`): the flattened config
  map, the key-to-watcher-ids reverse index (`path_listeners`), the
  id-to-key map (`notifiers`), and the id-to-notifier map
  (`id_to_notifies`), together with `set_value`, `delete_inner`,
  `watch_property_with_notify`, `delete_watcher`, `notify_path` and
  `notify_change`;
- `overlayGetValue` models `ConfigurationOverlay::get_value` from
  `rachat-config/src/lib.rs`;
- `watcherHandleDrop` models the `Drop` impl of `WatcherHandle`;
- `generate` models the snowflake id generator in
  `src/utils/id_generator.rs`, with u128 wrap-around made explicit.

Mutable state becomes explicit state passing; notification side effects
become returned lists of notified watcher ids; fallible operations return
`Except` or take the read result as an `Option` input.
-/

namespace Rachat

/-- Model of `serde_json::Value`: null, boolean, number, string, array or
object. Objects are association lists from field name to value, matching
a `serde_json::Map` with unique keys. Number representation details are
irrelevant to the claims, so numbers are modelled as integers. -/
inductive JValue : Type where
  | null
  | bool (b : Bool)
  | num (n : Int)
  | str (s : String)
  | arr (items : List JValue)
  | obj (fields : List (String × JValue))

namespace JValue

mutual
/-- Structural equality test on values, mirroring `PartialEq` on
`serde_json::Value`. -/
def beqV : JValue → JValue → Bool
  | .null, .null => true
  | .bool a, .bool b => a == b
  | .num a, .num b => a == b
  | .str a, .str b => a == b
  | .arr a, .arr b => beqL a b
  | .obj a, .obj b => beqF a b
  | _, _ => false
/-- Structural equality test on value lists. -/
def beqL : List JValue → List JValue → Bool
  | [], [] => true
  | a :: as, b :: bs => beqV a b && beqL as bs
  | _, _ => false
/-- Structural equality test on field lists. -/
def beqF : List (String × JValue) → List (String × JValue) → Bool
  | [], [] => true
  | (ka, va) :: as, (kb, vb) :: bs => ka == kb && beqV va vb && beqF as bs
  | _, _ => false
end

mutual
theorem beqV_iff : ∀ a b : JValue, beqV a b = true ↔ a = b
  | .null, .null => by simp [beqV]
  | .bool _, .bool _ => by simp [beqV]
  | .num _, .num _ => by simp [beqV]
  | .str _, .str _ => by simp [beqV]
  | .arr a, .arr b => by simp [beqV, beqL_iff a b]
  | .obj a, .obj b => by simp [beqV, beqF_iff a b]
  | .null, .bool _ => by simp [beqV]
  | .null, .num _ => by simp [beqV]
  | .null, .str _ => by simp [beqV]
  | .null, .arr _ => by simp [beqV]
  | .null, .obj _ => by simp [beqV]
  | .bool _, .null => by simp [beqV]
  | .bool _, .num _ => by simp [beqV]
  | .bool _, .str _ => by simp [beqV]
  | .bool _, .arr _ => by simp [beqV]
  | .bool _, .obj _ => by simp [beqV]
  | .num _, .null => by simp [beqV]
  | .num _, .bool _ => by simp [beqV]
  | .num _, .str _ => by simp [beqV]
  | .num _, .arr _ => by simp [beqV]
  | .num _, .obj _ => by simp [beqV]
  | .str _, .null => by simp [beqV]
  | .str _, .bool _ => by simp [beqV]
  | .str _, .num _ => by simp [beqV]
  | .str _, .arr _ => by simp [beqV]
  | .str _, .obj _ => by simp [beqV]
  | .arr _, .null => by simp [beqV]
  | .arr _, .bool _ => by simp [beqV]
  | .arr _, .num _ => by simp [beqV]
  | .arr _, .str _ => by simp [beqV]
  | .arr _, .obj _ => by simp [beqV]
  | .obj _, .null => by simp [beqV]
  | .obj _, .bool _ => by simp [beqV]
  | .obj _, .num _ => by simp [beqV]
  | .obj _, .str _ => by simp [beqV]
  | .obj _, .arr _ => by simp [beqV]
theorem beqL_iff : ∀ a b : List JValue, beqL a b = true ↔ a = b
  | [], [] => by simp [beqL]
  | a :: as, b :: bs => by simp [beqL, beqV_iff a b, beqL_iff as bs]
  | [], _ :: _ => by simp [beqL]
  | _ :: _, [] => by simp [beqL]
theorem beqF_iff : ∀ a b : List (String × JValue), beqF a b = true ↔ a = b
  | [], [] => by simp [beqF]
  | (_, va) :: as, (_, vb) :: bs => by simp [beqF, beqV_iff va vb, beqF_iff as bs]
  | [], _ :: _ => by simp [beqF]
  | _ :: _, [] => by simp [beqF]
end

instance instDecEqJValue : DecidableEq JValue := fun a b =>
  decidable_of_iff (beqV a b = true) (beqV_iff a b)

/-- Returns true exactly on object-typed values, mirroring
`Value::Object(_)` pattern matches in the source. -/
def isObj : JValue → Bool
  | .obj _ => true
  | _ => false

end JValue

/-- Association-list lookup, modelling `HashMap::get` / `Map::get` (also
`contains_key` via `Option.isSome`). First match wins. -/
def lookupA {α β : Type} [DecidableEq α] : List (α × β) → α → Option β
  | [], _ => none
  | (k, v) :: rest, k' => if k = k' then some v else lookupA rest k'

/-- Association-list insert-or-replace, modelling `HashMap::insert` /
`Map::insert`: replaces the value when the key is present, otherwise
appends the entry. -/
def insertA {α β : Type} [DecidableEq α] : List (α × β) → α → β → List (α × β)
  | [], k, v => [(k, v)]
  | (k', v') :: rest, k, v =>
      if k' = k then (k', v) :: rest else (k', v') :: insertA rest k v

/-- Association-list removal, modelling `HashMap::remove`: drops every
entry with the given key (an actual `HashMap` holds at most one). -/
def removeA {α β : Type} [DecidableEq α] : List (α × β) → α → List (α × β)
  | [], _ => []
  | (k', v') :: rest, k =>
      if k' = k then removeA rest k else (k', v') :: removeA rest k

/-- The flattened configuration map `HashMap<String, Value>`, keyed by
dotted path strings. -/
abbrev FlatMap := List (String × JValue)

mutual
/-- Model of `flatten` in `de.rs`: walks a value; for an object it
recurses into each field with `.field` appended to the running key
(`format!("{key}.{k}")`); any non-object value is inserted at the
accumulated key. -/
def flatten (hm : FlatMap) (key : String) : JValue → FlatMap
  | .obj fields => flattenFields hm key fields
  | v => insertA hm key v
/-- The `for (k, v) in map` loop inside `flatten`, threading the map
accumulator left to right through the object fields. -/
def flattenFields (hm : FlatMap) (key : String) : List (String × JValue) → FlatMap
  | [] => hm
  | (k, v) :: rest => flattenFields (flatten hm (key ++ "." ++ k) v) key rest
end

/-- Model of `deserialize` in `de.rs`: flattens a document value into a
flat map, starting from the empty accumulated key `String::new()`. -/
def deserialize (v : JValue) : FlatMap := flatten [] "" v

/-- Helper for `splitDots`: accumulates the current segment (in reverse)
while scanning the character list. -/
def splitDotsAux : List Char → List Char → List String
  | [], acc => [String.mk acc.reverse]
  | c :: rest, acc =>
      if c = '.' then String.mk acc.reverse :: splitDotsAux rest []
      else splitDotsAux rest (c :: acc)

/-- Model of Rust `str::split('.')` as used by `serialize`: splits a key
into dotted path segments. The empty string yields one empty segment,
exactly as in Rust. -/
def splitDots (s : String) : List String := splitDotsAux s.data []

/-- Model of `insert` in `ser.rs`: walks the path segments through the
value tree under construction. At an intermediate segment the current
node must be an object; a missing field is first populated with an empty
object placeholder and then descended into. At the end of the path the
current node must still be the empty object placeholder, which is
replaced by the leaf value; anything else is a conflict error. -/
def insertVal : List String → JValue → JValue → Except String JValue
  | seg :: rest, .obj fields, v => do
      let child' ← insertVal rest ((lookupA fields seg).getD (.obj [])) v
      pure (.obj (insertA fields seg child'))
  | _ :: _, _, _ => Except.error "is not a map"
  | [], .obj [], v => pure v
  | [], _, _ => Except.error "Cannot overwrite non-empty object"

/-- Model of `serialize` in `ser.rs`: folds every (dotted key, value)
entry of the flat map into a nested value rooted at the empty object,
splitting each key on dots. The Rust code iterates a `HashMap` in
unspecified order; theorems about `serialize` quantify over the entry
order where it matters. -/
def serialize (m : FlatMap) : Except String JValue :=
  m.foldlM (fun root kv => insertVal (splitDots kv.1) root kv.2) (.obj [])

example : deserialize (.obj [("a", .num 1)]) = [(".a", .num 1)] := by decide
example : splitDots ".a" = ["", "a"] := by decide
example : serialize [(".a", .num 1)] = .ok (.obj [("", .obj [("a", .num 1)])]) := by rfl
example : serialize [("a", .num 1), ("a.b", .num 2)] = .error "is not a map" := by rfl
example : serialize [("a.b", .num 2), ("a", .num 1)] =
    .error "Cannot overwrite non-empty object" := by rfl

/-- The bookkeeping state of a `FileConfig` (`file_config.rs`): the
in-memory flattened map `config`, the reverse index `path_listeners`
(key to set of watch ids, sets modelled as duplicate-free lists), the
`notifiers` map (watch id to key) and the `id_to_notifies` map (watch id
to notifier, notifiers identified by numeric tokens). -/
structure FCState : Type where
  config : FlatMap
  path_listeners : List (String × List Nat)
  notifiers : List (Nat × String)
  id_to_notifies : List (Nat × Nat)
  deriving DecidableEq

/-- Model of `FileConfig::notify_path`: looks up the listener ids
registered for `path` and returns the ids whose notifier exists in
`id_to_notifies` (exactly those the code calls `notify_one` on; a
missing notifier is only logged). -/
def notifyPath (st : FCState) (path : String) : List Nat :=
  match lookupA st.path_listeners path with
  | none => []
  | some listener_ids =>
      listener_ids.filter (fun id => (lookupA st.id_to_notifies id).isSome)

/-- Model of `FileConfig::set_value`: inserts the value into the
in-memory map, then notifies the watchers of that single key. Returns
the new state and the list of notified watch ids. The asynchronous disk
rewrite it also schedules does not touch the bookkeeping state. -/
def setValue (st : FCState) (key : String) (v : JValue) : FCState × List Nat :=
  let st' := { st with config := insertA st.config key v }
  (st', notifyPath st' key)

/-- Model of `FileConfig::delete_inner`: removes the key from the
in-memory map, then notifies the watchers of that key. -/
def deleteInner (st : FCState) (key : String) : FCState × List Nat :=
  let st' := { st with config := removeA st.config key }
  (st', notifyPath st' key)

/-- Model of `FileConfig::watch_property_with_notify`: records the fresh
id in `id_to_notifies` (id to notifier token), in `notifiers` (id to
key), and adds it to the `path_listeners` entry of the key
(`entry(key).or_default().insert(id)`). -/
def watchProperty (st : FCState) (key : String) (id notifyTok : Nat) : FCState :=
  let cur := (lookupA st.path_listeners key).getD []
  { st with
    id_to_notifies := insertA st.id_to_notifies id notifyTok
    notifiers := insertA st.notifiers id key
    path_listeners :=
      insertA st.path_listeners key (if id ∈ cur then cur else cur ++ [id]) }

/-- Model of `FileConfig::delete_watcher`: removes the id from the
`notifiers` map (returning early when it was not registered), removes
the id from the listener set of its key, and drops the key entry
entirely when that set becomes empty. Exactly as in the source, the
`id_to_notifies` map is not touched. -/
def deleteWatcher (st : FCState) (watch_id : Nat) : FCState :=
  match lookupA st.notifiers watch_id with
  | none => st
  | some path =>
      let st1 := { st with notifiers := removeA st.notifiers watch_id }
      match lookupA st1.path_listeners path with
      | none => st1
      | some listener_ids =>
          let listener_ids' := listener_ids.filter (fun i => i ≠ watch_id)
          { st1 with
            path_listeners :=
              if listener_ids' = [] then removeA st1.path_listeners path
              else insertA st1.path_listeners path listener_ids' }

/-- Model of `FileConfig::notify_change`, the debounced reload: the read
and parse of the backing file is passed in as `readRes` (`none` models
an IO or parse failure of `read_config`). On failure the state is
returned unchanged with no notifications. On success the parsed document
is flattened into the new map, the map is swapped in, the union of the
key sets of both maps is computed, and every key whose value differs
between old and new map is fanned out through `notifyPath`. Returns the
new state and the (key, watch id) notification pairs. -/
def notifyChange (st : FCState) (readRes : Option JValue) :
    FCState × List (String × Nat) :=
  match readRes with
  | none => (st, [])
  | some doc =>
      let new_config := deserialize doc
      let old_config := st.config
      let st' := { st with config := new_config }
      let keyset := (new_config.map Prod.fst ++ old_config.map Prod.fst).dedup
      (st',
        keyset.foldr (fun key acc =>
          if lookupA new_config key ≠ lookupA old_config key then
            (notifyPath st' key).map (fun id => (key, id)) ++ acc
          else acc) [])

/-- Model of `ConfigurationOverlay::get_value` (`lib.rs`): given the
result of querying the primary source and the result of querying the
parent, returns the primary result when it is `Ok(Some(v))` and the
parent result otherwise (on `Ok(None)` as well as on `Err`). -/
def overlayGetValue (srcRes parentRes : Except String (Option JValue)) :
    Except String (Option JValue) :=
  match srcRes with
  | .ok (some v) => .ok (some v)
  | _ => parentRes

/-- Model of `FileConfig::get_value`: an infallible read of the
in-memory flattened map. -/
def fcGetValue (st : FCState) (key : String) : Except String (Option JValue) :=
  .ok (lookupA st.config key)

/-- Model of the `Drop` impl of `WatcherHandle`: the weak reference to
the issuing source either upgrades to the live source state (`some st`)
or fails (`none`, the source has been destroyed). On upgrade the handle
calls `delete_watcher` with its id; otherwise nothing happens. -/
def watcherHandleDrop (upgraded : Option FCState) (watch_id : Nat) : Option FCState :=
  match upgraded with
  | none => none
  | some st => some (deleteWatcher st watch_id)

/-- Model of `generate` in `id_generator.rs`, on a u128 made explicit as
arithmetic mod 2^128: seconds times 10^9 plus the subsecond nanoseconds,
shifted left 16 bits three times (each shift truncating to 128 bits) and
OR-ed with the 16-bit node id, thread id and per-thread counter. The u16
arguments are reduced mod 2^16 to reflect their Rust types. -/
def generate (tsec tnano node thrd ctr : Nat) : Nat :=
  let id := tsec * 1000000000 % 2 ^ 128
  let id := (id + tnano) % 2 ^ 128
  let id := id * 2 ^ 16 % 2 ^ 128 ||| node % 2 ^ 16
  let id := id * 2 ^ 16 % 2 ^ 128 ||| thrd % 2 ^ 16
  let id := id * 2 ^ 16 % 2 ^ 128 ||| ctr % 2 ^ 16
  id

theorem lookupA_insertA_self {α β : Type} [DecidableEq α] (m : List (α × β)) (k : α) (v : β) :
    lookupA (insertA m k v) k = some v := by
  induction m with
  | nil => simp [insertA, lookupA]
  | cons hd tl ih =>
      obtain ⟨k', v'⟩ := hd
      by_cases h : k' = k
      · subst h; simp [insertA, lookupA]
      · simp [insertA, lookupA, h, ih]

theorem lookupA_insertA_ne {α β : Type} [DecidableEq α] (m : List (α × β)) (k k' : α) (v : β)
    (h : k' ≠ k) : lookupA (insertA m k v) k' = lookupA m k' := by
  induction m with
  | nil => simp [insertA, lookupA, Ne.symm h]
  | cons hd tl ih =>
      obtain ⟨k0, v0⟩ := hd
      by_cases h0 : k0 = k
      · subst h0
        simp [insertA, lookupA, Ne.symm h]
      · simp [insertA, lookupA, h0, ih]

theorem insertA_ne_nil {α β : Type} [DecidableEq α] (m : List (α × β)) (k : α) (v : β) :
    insertA m k v ≠ [] := by
  cases m with
  | nil => simp [insertA]
  | cons hd tl =>
      obtain ⟨k', v'⟩ := hd
      by_cases h : k' = k <;> simp [insertA, h]

theorem lookupA_removeA_self {α β : Type} [DecidableEq α] (m : List (α × β)) (k : α) :
    lookupA (removeA m k) k = none := by
  induction m with
  | nil => simp [removeA, lookupA]
  | cons hd tl ih =>
      obtain ⟨k', v'⟩ := hd
      by_cases h : k' = k
      · simp [removeA, h, ih]
      · simp [removeA, lookupA, h, ih]

theorem lookupA_removeA_ne {α β : Type} [DecidableEq α] (m : List (α × β)) (k k' : α)
    (h : k' ≠ k) : lookupA (removeA m k) k' = lookupA m k' := by
  induction m with
  | nil => simp [removeA]
  | cons hd tl ih =>
      obtain ⟨k0, v0⟩ := hd
      by_cases h0 : k0 = k
      · subst h0
        simp [removeA, lookupA, Ne.symm h, ih]
      · simp [removeA, lookupA, h0, ih]

theorem mem_insertA {α β : Type} [DecidableEq α] (m : List (α × β)) (k : α) (v : β)
    (x : α × β) (hx : x ∈ insertA m k v) : x ∈ m ∨ x = (k, v) := by
  induction m with
  | nil => simpa [insertA] using hx
  | cons hd tl ih =>
      obtain ⟨k', v'⟩ := hd
      by_cases h : k' = k
      · subst h
        simp only [insertA, if_pos rfl] at hx
        rcases List.mem_cons.mp hx with h1 | h1
        · right; rw [h1]
        · left; exact List.mem_cons_of_mem _ h1
      · simp only [insertA, if_neg h] at hx
        rcases List.mem_cons.mp hx with h1 | h1
        · left; exact h1 ▸ List.mem_cons_self _ _
        · rcases ih h1 with h2 | h2
          · left; exact List.mem_cons_of_mem _ h2
          · right; exact h2

theorem mem_removeA {α β : Type} [DecidableEq α] (m : List (α × β)) (k : α)
    (x : α × β) (hx : x ∈ removeA m k) : x ∈ m := by
  induction m with
  | nil => simpa [removeA] using hx
  | cons hd tl ih =>
      obtain ⟨k', v'⟩ := hd
      by_cases h : k' = k
      · simp only [removeA, if_pos h] at hx
        exact List.mem_cons_of_mem _ (ih hx)
      · simp only [removeA, if_neg h] at hx
        rcases List.mem_cons.mp hx with h1 | h1
        · exact h1 ▸ List.mem_cons_self _ _
        · exact List.mem_cons_of_mem _ (ih h1)

theorem deleteWatcher_of_unregistered (st : FCState) (id : Nat)
    (h : lookupA st.notifiers id = none) : deleteWatcher st id = st := by
  simp [deleteWatcher, h]

theorem lookupA_deleteWatcher_notifiers (st : FCState) (id : Nat) :
    lookupA (deleteWatcher st id).notifiers id = none := by
  cases h : lookupA st.notifiers id with
  | none => simpa [deleteWatcher, h] using h
  | some path =>
      simp only [deleteWatcher, h]
      cases hpl : lookupA st.path_listeners path with
      | none => simpa [hpl] using lookupA_removeA_self st.notifiers id
      | some listener_ids =>
          simp only [hpl]
          exact lookupA_removeA_self st.notifiers id

theorem mem_keys_of_lookupA {α β : Type} [DecidableEq α] (m : List (α × β)) (k : α) (v : β)
    (h : lookupA m k = some v) : k ∈ m.map Prod.fst := by
  induction m with
  | nil => simp [lookupA] at h
  | cons hd tl ih =>
      obtain ⟨k', v'⟩ := hd
      by_cases h0 : k' = k
      · subst h0; simp
      · simp only [lookupA, if_neg h0] at h
        simpa using Or.inr (by simpa using ih h)

/-- C5. Reload atomicity on error: when re-reading or re-parsing the
backing file fails (`readRes = none`), `notify_change` leaves the
in-memory flattened map — indeed the whole bookkeeping state — exactly
as it was and notifies no watcher. -/
theorem c5_reload_error_leaves_state_unchanged (st : FCState) :
    notifyChange st none = (st, []) := rfl

/-- C10. A failing primary read is swallowed by the overlay: for an
erroring primary result, `ConfigurationOverlay::get_value` returns
exactly the parent result (never the error), and its output is
indistinguishable from a primary that reported the key absent. -/
theorem c10_overlay_swallows_primary_error (e : String)
    (parentRes : Except String (Option JValue)) :
    overlayGetValue (.error e) parentRes = parentRes ∧
    overlayGetValue (.error e) parentRes = overlayGetValue (.ok none) parentRes :=
  ⟨rfl, rfl⟩

/-- C8. Releasing a `WatcherHandle` is safe in any teardown order: when
the weak reference fails to upgrade the drop does nothing; when the
source is alive it calls `delete_watcher` with the handle id; and a
second `delete_watcher` with the same id is a no-op, so deregistration
is idempotent. -/
theorem c8_handle_release_safe (st : FCState) (id : Nat) :
    watcherHandleDrop none id = none ∧
    watcherHandleDrop (some st) id = some (deleteWatcher st id) ∧
    deleteWatcher (deleteWatcher st id) id = deleteWatcher st id := by
  exact ⟨rfl, rfl,
    deleteWatcher_of_unregistered _ id (lookupA_deleteWatcher_notifiers st id)⟩

/-- C1 (failing evaluation). The flatten/unflatten codec does not round
trip: `flatten` starts from the empty running key and appends
`.field` for every object field, so for the document `{"a": 1}` it
produces the key `".a"`, and `serialize` splitting that key on dots
rebuilds `{"": {"a": 1}}`, not `{"a": 1}`. -/
theorem c1_roundtrip_fails_on_singleton :
    deserialize (.obj [("a", .num 1)]) = [(".a", .num 1)] ∧
    serialize (deserialize (.obj [("a", .num 1)])) =
      .ok (.obj [("", .obj [("a", .num 1)])]) ∧
    JValue.obj [("", .obj [("a", .num 1)])] ≠ JValue.obj [("a", .num 1)] :=
  ⟨by decide, by rfl, by decide⟩

/-- C2 (counterexample). Registering watch id 5 for key `"x"` on an
empty `FileConfig` state and then calling `delete_watcher(5)` leaves id
5 present in the `id_to_notifies` index (while it is gone from the
`notifiers` index), refuting the claim that deregistration removes the
id from all three indices. -/
theorem c2_counterexample :
    lookupA (deleteWatcher (watchProperty ⟨[], [], [], []⟩ "x" 5 0) 5).id_to_notifies 5 =
      some 0 ∧
    lookupA (deleteWatcher (watchProperty ⟨[], [], [], []⟩ "x" 5 0) 5).notifiers 5 = none := by
  decide

/-- C3 (counterexample). The File Source states reachable by public
operations are not object-free: starting from the state produced by the
initial load of an empty document, the public `set_value` stores any
caller-supplied value unchanged, so `set_value("x", {"a": 1})` puts an
object-typed value into the in-memory flattened map. -/
theorem c3_counterexample :
    lookupA (setValue ⟨deserialize (.obj []), [], [], []⟩ "x"
        (.obj [("a", .num 1)])).1.config "x" = some (.obj [("a", .num 1)]) ∧
    JValue.isObj (.obj [("a", .num 1)]) = true := by
  decide

/-- C2 (amended). `delete_watcher` on a registered id removes the id
from the id-to-key map (`notifiers`) and from the key-to-ids reverse
index (`path_listeners`), dropping the key entry entirely when its
watcher set becomes empty; the id-to-notifier map (`id_to_notifies`) is
left untouched and retains the id. -/
theorem c2_delete_watcher_amended (st : FCState) (id : Nat) (key : String)
    (hreg : lookupA st.notifiers id = some key)
    (hother : ∀ k ids, k ≠ key → lookupA st.path_listeners k = some ids → id ∉ ids) :
    lookupA (deleteWatcher st id).notifiers id = none ∧
    (∀ k ids, lookupA (deleteWatcher st id).path_listeners k = some ids →
        id ∉ ids ∧ (k = key → ids ≠ [])) ∧
    (deleteWatcher st id).id_to_notifies = st.id_to_notifies := by
  refine ⟨lookupA_deleteWatcher_notifiers st id, ?_, ?_⟩
  · intro k ids hk
    simp only [deleteWatcher, hreg] at hk
    cases hpl : lookupA st.path_listeners key with
    | none =>
        simp only [hpl] at hk
        by_cases hkey : k = key
        · subst hkey
          rw [hk] at hpl
          cases hpl
        · exact ⟨hother k ids hkey hk, fun hkk => absurd hkk hkey⟩
    | some listener_ids =>
        simp only [hpl] at hk
        by_cases hemp : listener_ids.filter (fun i => i ≠ id) = []
        · rw [if_pos hemp] at hk
          by_cases hkey : k = key
          · subst hkey
            rw [lookupA_removeA_self] at hk
            cases hk
          · rw [lookupA_removeA_ne _ _ _ hkey] at hk
            exact ⟨hother k ids hkey hk, fun hkk => absurd hkk hkey⟩
        · rw [if_neg hemp] at hk
          by_cases hkey : k = key
          · subst hkey
            rw [lookupA_insertA_self] at hk
            cases hk
            refine ⟨?_, fun _ => hemp⟩
            intro hmem
            have := (List.mem_filter.mp hmem).2
            simp at this
          · rw [lookupA_insertA_ne _ _ _ _ hkey] at hk
            exact ⟨hother k ids hkey hk, fun hkk => absurd hkk hkey⟩
  · simp only [deleteWatcher, hreg]
    cases hpl : lookupA st.path_listeners key with
    | none => rfl
    | some listener_ids =>
        by_cases hemp : listener_ids.filter (fun i => i ≠ id) = [] <;>
          simp [hemp]

/-- C2 (witness). The amended deregistration behaviour evaluated on the
concrete state holding one watcher (id 5, key `"x"`, notifier token 0). -/
theorem c2_delete_watcher_amended_witness :
    lookupA (watchProperty ⟨[], [], [], []⟩ "x" 5 0).notifiers 5 = some "x" ∧
    (lookupA (deleteWatcher (watchProperty ⟨[], [], [], []⟩ "x" 5 0) 5).notifiers 5 = none ∧
     (∀ k ids,
        lookupA (deleteWatcher (watchProperty ⟨[], [], [], []⟩ "x" 5 0) 5).path_listeners k =
          some ids → 5 ∉ ids ∧ (k = "x" → ids ≠ [])) ∧
     (deleteWatcher (watchProperty ⟨[], [], [], []⟩ "x" 5 0) 5).id_to_notifies =
       (watchProperty ⟨[], [], [], []⟩ "x" 5 0).id_to_notifies) := by
  have hother : ∀ k ids, k ≠ "x" →
      lookupA (watchProperty ⟨[], [], [], []⟩ "x" 5 0).path_listeners k = some ids →
      5 ∉ ids := by
    intro k ids hne hl
    have hnone : lookupA (watchProperty (⟨[], [], [], []⟩ : FCState) "x" 5 0).path_listeners k =
        none := by
      show lookupA [("x", [5])] k = none
      simp [lookupA, Ne.symm hne]
    rw [hnone] at hl
    cases hl
  exact ⟨by decide, c2_delete_watcher_amended _ 5 "x" (by decide) hother⟩

/-- C4. Overlay precedence: the overlay returns the primary value when
the primary yields one and otherwise returns whatever the parent yields;
with a parent holding `x = 1` and a primary File Source without `x`,
`get_value("x")` yields `Some(1)`, and after `set_value("x", 2)` on the
primary it yields `Some(2)` regardless of the parent result. -/
theorem c4_overlay_precedence :
    (∀ (st : FCState) (parentRes : Except String (Option JValue)) (key : String) (v : JValue),
        lookupA st.config key = some v →
        overlayGetValue (fcGetValue st key) parentRes = .ok (some v)) ∧
    (∀ (st : FCState) (parentRes : Except String (Option JValue)) (key : String),
        lookupA st.config key = none →
        overlayGetValue (fcGetValue st key) parentRes = parentRes) ∧
    (∀ (st : FCState) (parentRes : Except String (Option JValue)),
        lookupA st.config "x" = none → parentRes = .ok (some (.num 1)) →
        overlayGetValue (fcGetValue st "x") parentRes = .ok (some (.num 1))) ∧
    (∀ (st : FCState) (parentRes2 : Except String (Option JValue)),
        overlayGetValue (fcGetValue (setValue st "x" (.num 2)).1 "x") parentRes2 =
          .ok (some (.num 2))) := by
  refine ⟨?_, ?_, ?_, ?_⟩
  · intro st p key v h
    simp [overlayGetValue, fcGetValue, h]
  · intro st p key h
    simp [overlayGetValue, fcGetValue, h]
  · intro st p h hp
    subst hp
    simp [overlayGetValue, fcGetValue, h]
  · intro st p
    have h : lookupA (setValue st "x" (.num 2)).1.config "x" = some (.num 2) := by
      simp only [setValue]
      exact lookupA_insertA_self _ _ _
    simp [overlayGetValue, fcGetValue, h]

/-- C4 (witness). The precedence scenario evaluated on the empty primary
state and a parent that yields `Some(1)` for `"x"`. -/
theorem c4_overlay_precedence_witness :
    lookupA (⟨[], [], [], []⟩ : FCState).config "x" = none ∧
    overlayGetValue (fcGetValue ⟨[], [], [], []⟩ "x") (.ok (some (.num 1))) =
      .ok (some (.num 1)) ∧
    overlayGetValue (fcGetValue (setValue ⟨[], [], [], []⟩ "x" (.num 2)).1 "x")
        (.ok (some (.num 1))) = .ok (some (.num 2)) :=
  ⟨by decide, c4_overlay_precedence.2.2.1 _ _ (by decide) rfl,
    c4_overlay_precedence.2.2.2 _ _⟩

/-- The File Source map invariant of the spec: no stored value is an
object-typed `ConfigValue`. -/
def noObjValues (m : FlatMap) : Prop := ∀ kv ∈ m, kv.2.isObj = false

theorem noObjValues_insertA (m : FlatMap) (k : String) (v : JValue)
    (hm : noObjValues m) (hv : v.isObj = false) : noObjValues (insertA m k v) := by
  intro kv hkv
  rcases mem_insertA _ _ _ _ hkv with h1 | h1
  · exact hm kv h1
  · rw [h1]; exact hv

mutual
theorem flatten_noObj : ∀ (hm : FlatMap) (key : String) (v : JValue),
    noObjValues hm → noObjValues (flatten hm key v)
  | hm, key, .null, h => noObjValues_insertA hm key .null h rfl
  | hm, key, .bool b, h => noObjValues_insertA hm key (.bool b) h rfl
  | hm, key, .num n, h => noObjValues_insertA hm key (.num n) h rfl
  | hm, key, .str s, h => noObjValues_insertA hm key (.str s) h rfl
  | hm, key, .arr items, h => noObjValues_insertA hm key (.arr items) h rfl
  | hm, key, .obj fields, h => flattenFields_noObj hm key fields h
theorem flattenFields_noObj : ∀ (hm : FlatMap) (key : String)
    (fields : List (String × JValue)),
    noObjValues hm → noObjValues (flattenFields hm key fields)
  | hm, _, [], h => h
  | hm, key, (k, v) :: rest, h =>
      flattenFields_noObj (flatten hm (key ++ "." ++ k) v) key rest
        (flatten_noObj hm (key ++ "." ++ k) v h)
end

theorem deserialize_noObj (doc : JValue) : noObjValues (deserialize doc) :=
  flatten_noObj [] "" doc (by intro kv hkv; cases hkv)

theorem deleteWatcher_config (st : FCState) (id : Nat) :
    (deleteWatcher st id).config = st.config := by
  cases h : lookupA st.notifiers id with
  | none => simp [deleteWatcher, h]
  | some path =>
      simp only [deleteWatcher, h]
      cases hpl : lookupA st.path_listeners path with
      | none => rfl
      | some listener_ids =>
          by_cases hemp : listener_ids.filter (fun i => i ≠ id) = [] <;> simp [hemp]

/-- The states of a File Source reachable through its public operations
when every `set_value` call supplies a non-object value: initial load of
a parsed document, debounced reload, `set_value`, `delete`, watch
registration and watch deregistration. -/
inductive ReachableNonObjWrites : FCState → Prop where
  | load (doc : JValue) : ReachableNonObjWrites ⟨deserialize doc, [], [], []⟩
  | reload (st : FCState) (readRes : Option JValue) :
      ReachableNonObjWrites st → ReachableNonObjWrites (notifyChange st readRes).1
  | set (st : FCState) (key : String) (v : JValue) :
      ReachableNonObjWrites st → v.isObj = false →
      ReachableNonObjWrites (setValue st key v).1
  | del (st : FCState) (key : String) :
      ReachableNonObjWrites st → ReachableNonObjWrites (deleteInner st key).1
  | watch (st : FCState) (key : String) (id tok : Nat) :
      ReachableNonObjWrites st → ReachableNonObjWrites (watchProperty st key id tok)
  | delw (st : FCState) (id : Nat) :
      ReachableNonObjWrites st → ReachableNonObjWrites (deleteWatcher st id)

/-- C3 (amended). The no-object invariant holds for every File Source
state reachable through the public operations provided each `set_value`
stores a non-object value: initial load and reload expand all document
nesting into dotted keys and never store an object, and the other
operations preserve the invariant. (`set_value` itself stores whatever
value it is handed, so the unrestricted claim fails; see the
counterexample.) -/
theorem c3_no_object_values_amended (st : FCState) (h : ReachableNonObjWrites st) :
    noObjValues st.config := by
  induction h with
  | load doc => exact deserialize_noObj doc
  | reload st readRes hst ih =>
      cases readRes with
      | none => exact ih
      | some doc =>
          have : (notifyChange st (some doc)).1.config = deserialize doc := rfl
          rw [this]
          exact deserialize_noObj doc
  | set st key v hst hv ih =>
      have : (setValue st key v).1.config = insertA st.config key v := rfl
      rw [this]
      exact noObjValues_insertA _ _ _ ih hv
  | del st key hst ih =>
      have : (deleteInner st key).1.config = removeA st.config key := rfl
      rw [this]
      intro kv hkv
      exact ih kv (mem_removeA _ _ _ hkv)
  | watch st key id tok hst ih => exact ih
  | delw st id hst ih =>
      rw [deleteWatcher_config]
      exact ih

/-- C3 (witness). The amended invariant evaluated on a concrete state
reached by loading the empty document and storing one number. -/
theorem c3_no_object_values_amended_witness :
    noObjValues (setValue ⟨deserialize (.obj []), [], [], []⟩ "x" (.num 1)).1.config :=
  c3_no_object_values_amended _
    (ReachableNonObjWrites.set _ "x" (.num 1)
      (ReachableNonObjWrites.load (.obj [])) (by decide))

theorem generate_closed (tsec tnano node thrd ctr : Nat)
    (h : tsec * 1000000000 + tnano < 2 ^ 80) :
    generate tsec tnano node thrd ctr =
      (tsec * 1000000000 + tnano) * 2 ^ 48 + node % 2 ^ 16 * 2 ^ 32 +
        thrd % 2 ^ 16 * 2 ^ 16 + ctr % 2 ^ 16 := by
  have hn : node % 2 ^ 16 < 2 ^ 16 := Nat.mod_lt _ (by norm_num)
  have hth : thrd % 2 ^ 16 < 2 ^ 16 := Nat.mod_lt _ (by norm_num)
  have hc : ctr % 2 ^ 16 < 2 ^ 16 := Nat.mod_lt _ (by norm_num)
  show (((tsec * 1000000000 % 2 ^ 128 + tnano) % 2 ^ 128 * 2 ^ 16 % 2 ^ 128 |||
      node % 2 ^ 16) * 2 ^ 16 % 2 ^ 128 ||| thrd % 2 ^ 16) * 2 ^ 16 % 2 ^ 128 |||
        ctr % 2 ^ 16 = _
  rw [Nat.mod_eq_of_lt (show tsec * 1000000000 < 2 ^ 128 by omega),
    Nat.mod_eq_of_lt (show tsec * 1000000000 + tnano < 2 ^ 128 by omega),
    Nat.mod_eq_of_lt (show (tsec * 1000000000 + tnano) * 2 ^ 16 < 2 ^ 128 by omega),
    mul_comm (tsec * 1000000000 + tnano) (2 ^ 16),
    ← Nat.mul_add_lt_is_or hn _]
  rw [Nat.mod_eq_of_lt (show (2 ^ 16 * (tsec * 1000000000 + tnano) + node % 2 ^ 16) * 2 ^ 16 <
      2 ^ 128 by omega),
    mul_comm (2 ^ 16 * (tsec * 1000000000 + tnano) + node % 2 ^ 16) (2 ^ 16),
    ← Nat.mul_add_lt_is_or hth _]
  rw [Nat.mod_eq_of_lt (show (2 ^ 16 * (2 ^ 16 * (tsec * 1000000000 + tnano) +
      node % 2 ^ 16) + thrd % 2 ^ 16) * 2 ^ 16 < 2 ^ 128 by omega),
    mul_comm _ (2 ^ 16), ← Nat.mul_add_lt_is_or hc _]
  ring

/-- C9 (counterexample). Two successive calls on one thread are not
always strictly increasing: a first call at one second past the epoch
(counter 0) followed by a second call after a clock rewind to 999
nanoseconds past the epoch (counter 1) produces a strictly smaller id,
exactly the clock-rewind case the generator doc itself concedes. -/
theorem c9_counterexample : generate 0 999 0 0 1 < generate 1 0 0 0 0 := by
  rw [generate_closed 0 999 0 0 1 (by norm_num), generate_closed 1 0 0 0 0 (by norm_num)]
  norm_num

/-- C9 (amended). Ids generated on a single thread are strictly
increasing whenever the calls have lexicographically increasing
(nanosecond timestamp, 16-bit counter) pairs — that is, whenever the
wall clock does not run backwards between the calls and the per-thread
counter does not wrap within one nanosecond — with the node and thread
discriminators fixed and timestamps in the u128-overflow-free range. -/
theorem c9_generator_monotone_amended
    (tsec1 tnano1 ctr1 tsec2 tnano2 ctr2 node thrd : Nat)
    (hbound : tsec2 * 1000000000 + tnano2 < 2 ^ 80)
    (hlex : tsec1 * 1000000000 + tnano1 < tsec2 * 1000000000 + tnano2 ∨
      (tsec1 * 1000000000 + tnano1 = tsec2 * 1000000000 + tnano2 ∧
        ctr1 % 2 ^ 16 < ctr2 % 2 ^ 16)) :
    generate tsec1 tnano1 node thrd ctr1 < generate tsec2 tnano2 node thrd ctr2 := by
  have h1 : tsec1 * 1000000000 + tnano1 < 2 ^ 80 := by
    rcases hlex with h | ⟨h, _⟩ <;> omega
  rw [generate_closed _ _ _ _ _ h1, generate_closed _ _ _ _ _ hbound]
  have hc2 : ctr2 % 2 ^ 16 < 2 ^ 16 := Nat.mod_lt _ (by norm_num)
  rcases hlex with h | ⟨heq, hc⟩
  · have hc1 : ctr1 % 2 ^ 16 < 2 ^ 16 := Nat.mod_lt _ (by norm_num)
    omega
  · omega

/-- C9 (witness). The amended monotonicity evaluated on two concrete
same-nanosecond calls with increasing counter. -/
theorem c9_generator_monotone_amended_witness :
    generate 7 500 3 4 10 < generate 7 500 3 4 11 :=
  c9_generator_monotone_amended 7 500 10 7 500 11 3 4 (by norm_num)
    (Or.inr ⟨rfl, by norm_num⟩)

/-- Well-formedness of the watcher bookkeeping, maintained by the code:
every id listed in the reverse index has a notifier registered in
`id_to_notifies` (registration inserts into both, and deregistration
never removes from `id_to_notifies`). -/
def wfListeners (st : FCState) : Prop :=
  ∀ key ids, lookupA st.path_listeners key = some ids →
    ∀ id ∈ ids, (lookupA st.id_to_notifies id).isSome = true

theorem mem_notifyPath_iff (st : FCState) (key : String) (id : Nat)
    (hwf : wfListeners st) :
    id ∈ notifyPath st key ↔ id ∈ (lookupA st.path_listeners key).getD [] := by
  cases h : lookupA st.path_listeners key with
  | none => simp [notifyPath, h]
  | some ids =>
      simp only [notifyPath, h, Option.getD_some, List.mem_filter]
      constructor
      · exact fun hh => hh.1
      · exact fun hh => ⟨hh, hwf key ids h id hh⟩

theorem mem_notify_foldr_iff (new_config old_config : FlatMap) (st' : FCState)
    (l : List String) (key : String) (id : Nat) :
    ((key, id) ∈ l.foldr (fun k acc =>
        if lookupA new_config k ≠ lookupA old_config k then
          (notifyPath st' k).map (fun i => (k, i)) ++ acc
        else acc) []) ↔
      (key ∈ l ∧ lookupA new_config key ≠ lookupA old_config key ∧
        id ∈ notifyPath st' key) := by
  induction l with
  | nil => simp
  | cons hd tl ih =>
      by_cases hdif : lookupA new_config hd ≠ lookupA old_config hd
      · simp only [List.foldr_cons, if_pos hdif, List.mem_append, List.mem_map, ih]
        constructor
        · rintro (⟨i, hi, heq⟩ | ⟨hmem, hdif2, hnp⟩)
          · obtain ⟨h1, h2⟩ := Prod.mk.injEq .. ▸ heq
            refine ⟨h1 ▸ List.mem_cons_self _ _, h1 ▸ hdif, ?_⟩
            rw [← h1, ← h2] at *
            exact h2 ▸ h1 ▸ hi
          · exact ⟨List.mem_cons_of_mem _ hmem, hdif2, hnp⟩
        · rintro ⟨hmem, hdif2, hnp⟩
          rcases List.mem_cons.mp hmem with h1 | h1
          · exact Or.inl ⟨id, h1 ▸ hnp, by rw [h1]⟩
          · exact Or.inr ⟨h1, hdif2, hnp⟩
      · simp only [List.foldr_cons, if_neg hdif, ih]
        constructor
        · rintro ⟨hmem, hdif2, hnp⟩
          exact ⟨List.mem_cons_of_mem _ hmem, hdif2, hnp⟩
        · rintro ⟨hmem, hdif2, hnp⟩
          rcases List.mem_cons.mp hmem with h1 | h1
          · exact absurd (h1 ▸ hdif2) hdif
          · exact ⟨h1, hdif2, hnp⟩

/-- C6. Reload notification fan-out: after a successful reload of the
parsed document `doc`, a watch id receives a notification for a key
exactly when the key's value differs between the new and the old
flattened map (a key absent on one side differs from any present value)
and the id is registered for that key in the reverse index. In
particular keys with equal values trigger no notification. -/
theorem c6_reload_notification_fanout (st : FCState) (doc : JValue) (key : String)
    (id : Nat) (hwf : wfListeners st) :
    ((key, id) ∈ (notifyChange st (some doc)).2 ↔
      (lookupA (deserialize doc) key ≠ lookupA st.config key ∧
        id ∈ (lookupA st.path_listeners key).getD [])) := by
  have hwf2 : wfListeners { st with config := deserialize doc } := hwf
  have hmain := mem_notify_foldr_iff (deserialize doc) st.config
    { st with config := deserialize doc }
    ((deserialize doc).map Prod.fst ++ st.config.map Prod.fst).dedup key id
  constructor
  · intro hmem
    obtain ⟨_, hdif, hnp⟩ := hmain.mp hmem
    exact ⟨hdif, (mem_notifyPath_iff _ key id hwf2).mp hnp⟩
  · rintro ⟨hdif, hreg⟩
    refine hmain.mpr ⟨?_, hdif, (mem_notifyPath_iff _ key id hwf2).mpr hreg⟩
    rw [List.mem_dedup, List.mem_append]
    cases hnew : lookupA (deserialize doc) key with
    | some v => exact Or.inl (mem_keys_of_lookupA _ _ _ hnew)
    | none =>
        cases hold : lookupA st.config key with
        | some v => exact Or.inr (mem_keys_of_lookupA _ _ _ hold)
        | none => exact absurd (hnew.trans hold.symm) hdif

/-- C6 (witness). The fan-out equivalence evaluated on a concrete state
with one watcher on `"x"` and a reload that removes `"x"`. -/
theorem c6_reload_notification_fanout_witness :
    wfListeners ⟨[("x", .num 1)], [("x", [5])], [(5, "x")], [(5, 0)]⟩ ∧
    (("x", 5) ∈ (notifyChange ⟨[("x", .num 1)], [("x", [5])], [(5, "x")], [(5, 0)]⟩
        (some (.obj []))).2 ↔
      (lookupA (deserialize (.obj [])) "x" ≠ lookupA [("x", JValue.num 1)] "x" ∧
        5 ∈ (lookupA [("x", [5])] "x").getD [])) := by
  have hwf : wfListeners ⟨[("x", .num 1)], [("x", [5])], [(5, "x")], [(5, 0)]⟩ := by
    intro key ids h
    by_cases h0 : "x" = key
    · subst h0
      simp only [lookupA, if_pos rfl] at h
      cases h
      intro id hid
      simp only [List.mem_singleton] at hid
      subst hid
      decide
    · simp only [lookupA, if_neg h0] at h
      cases h
  exact ⟨hwf, c6_reload_notification_fanout _ (.obj []) "x" 5 hwf⟩

/-- Reads the value at a path of segments inside a nested value:
descends through object fields and fails when a segment is missing or a
non-object is hit before the path ends. Used to state where `insertVal`
places values and what blocks it. -/
def getPath : JValue → List String → Option JValue
  | t, [] => some t
  | .obj fields, seg :: rest =>
      match lookupA fields seg with
      | some child => getPath child rest
      | none => none
  | _, _ :: _ => none

theorem getPath_nil (t : JValue) : getPath t [] = some t := by
  cases t <;> rfl

theorem insertVal_getPath (p : List String) (t v t' : JValue)
    (h : insertVal p t v = .ok t') : getPath t' p = some v := by
  induction p generalizing t t' with
  | nil =>
      cases t with
      | obj fields =>
          cases fields with
          | nil =>
              simp only [insertVal, pure, Except.pure] at h
              cases h
              exact getPath_nil v
          | cons f rest => simp [insertVal] at h
      | null => simp [insertVal] at h
      | bool b => simp [insertVal] at h
      | num n => simp [insertVal] at h
      | str s => simp [insertVal] at h
      | arr items => simp [insertVal] at h
  | cons seg rest ih =>
      cases t with
      | obj fields =>
          simp only [insertVal, bind, Except.bind] at h
          cases hrec : insertVal rest ((lookupA fields seg).getD (.obj [])) v with
          | error e => rw [hrec] at h; cases h
          | ok child' =>
              rw [hrec] at h
              simp only [pure, Except.pure] at h
              cases h
              simp only [getPath, lookupA_insertA_self]
              exact ih _ _ hrec
      | null => simp [insertVal] at h
      | bool b => simp [insertVal] at h
      | num n => simp [insertVal] at h
      | str s => simp [insertVal] at h
      | arr items => simp [insertVal] at h

theorem insertVal_error_of_nonobj_at (p q : List String) (t v w : JValue)
    (hget : getPath t p = some w) (hw : w.isObj = false) (hq : q ≠ []) :
    ∃ e, insertVal (p ++ q) t v = .error e := by
  induction p generalizing t with
  | nil =>
      simp only [getPath, Option.some.injEq] at hget
      subst hget
      cases q with
      | nil => exact absurd rfl hq
      | cons qs qrest =>
          cases t with
          | obj fields => simp [JValue.isObj] at hw
          | null => exact ⟨_, rfl⟩
          | bool b => exact ⟨_, rfl⟩
          | num n => exact ⟨_, rfl⟩
          | str s => exact ⟨_, rfl⟩
          | arr items => exact ⟨_, rfl⟩
  | cons seg rest ih =>
      cases t with
      | obj fields =>
          simp only [getPath] at hget
          cases hc : lookupA fields seg with
          | none => rw [hc] at hget; cases hget
          | some child =>
              rw [hc] at hget
              obtain ⟨e, he⟩ := ih child hget
              refine ⟨e, ?_⟩
              simp only [List.cons_append, insertVal, hc, Option.getD_some, bind,
                Except.bind, List.append_eq, he]
      | null => cases hget
      | bool b => cases hget
      | num n => cases hget
      | str s => cases hget
      | arr items => cases hget

theorem insertVal_error_of_nonempty_at (p : List String) (t v w : JValue)
    (hget : getPath t p = some w) (hw : w ≠ .obj []) :
    ∃ e, insertVal p t v = .error e := by
  induction p generalizing t with
  | nil =>
      simp only [getPath, Option.some.injEq] at hget
      subst hget
      cases t with
      | obj fields =>
          cases fields with
          | nil => exact absurd rfl hw
          | cons f frest => exact ⟨_, rfl⟩
      | null => exact ⟨_, rfl⟩
      | bool b => exact ⟨_, rfl⟩
      | num n => exact ⟨_, rfl⟩
      | str s => exact ⟨_, rfl⟩
      | arr items => exact ⟨_, rfl⟩
  | cons seg rest ih =>
      cases t with
      | obj fields =>
          simp only [getPath] at hget
          cases hc : lookupA fields seg with
          | none => rw [hc] at hget; cases hget
          | some child =>
              rw [hc] at hget
              obtain ⟨e, he⟩ := ih child hget
              refine ⟨e, ?_⟩
              simp only [insertVal, hc, Option.getD_some, bind, Except.bind, he]
      | null => cases hget
      | bool b => cases hget
      | num n => cases hget
      | str s => cases hget
      | arr items => cases hget

theorem insertVal_ok_nonempty_obj_at (p : List String) (seg : String) (q : List String)
    (t v t' : JValue) (h : insertVal (p ++ seg :: q) t v = .ok t') :
    ∃ g, getPath t' p = some (.obj g) ∧ g ≠ [] := by
  induction p generalizing t t' with
  | nil =>
      cases t with
      | obj fields =>
          simp only [List.nil_append, insertVal, bind, Except.bind] at h
          cases hrec : insertVal q ((lookupA fields seg).getD (.obj [])) v with
          | error e => rw [hrec] at h; cases h
          | ok child' =>
              rw [hrec] at h
              simp only [pure, Except.pure] at h
              cases h
              exact ⟨insertA fields seg child', rfl, insertA_ne_nil _ _ _⟩
      | null => simp [insertVal] at h
      | bool b => simp [insertVal] at h
      | num n => simp [insertVal] at h
      | str s => simp [insertVal] at h
      | arr items => simp [insertVal] at h
  | cons s prest ih =>
      cases t with
      | obj fields =>
          simp only [List.cons_append, insertVal, bind, Except.bind, List.append_eq] at h
          cases hrec : insertVal (prest ++ seg :: q) ((lookupA fields s).getD (.obj [])) v with
          | error e => rw [hrec] at h; cases h
          | ok child' =>
              rw [hrec] at h
              simp only [pure, Except.pure] at h
              cases h
              obtain ⟨g, hg, hgne⟩ := ih _ _ hrec
              exact ⟨g, by simp only [getPath, lookupA_insertA_self]; exact hg, hgne⟩
      | null => simp [insertVal] at h
      | bool b => simp [insertVal] at h
      | num n => simp [insertVal] at h
      | str s2 => simp [insertVal] at h
      | arr items => simp [insertVal] at h

theorem getPath_stable_nonobj (p2 p : List String) (t v t' w : JValue)
    (hget : getPath t p = some w) (hw : w.isObj = false)
    (hins : insertVal p2 t v = .ok t') : getPath t' p = some w := by
  induction p2 generalizing p t t' with
  | nil =>
      cases t with
      | obj fields =>
          cases fields with
          | nil =>
              cases p with
              | nil =>
                  simp only [getPath, Option.some.injEq] at hget
                  rw [← hget] at hw
                  simp [JValue.isObj] at hw
              | cons s prest => simp [getPath, lookupA] at hget
          | cons f frest => simp [insertVal] at hins
      | null => simp [insertVal] at hins
      | bool b => simp [insertVal] at hins
      | num n => simp [insertVal] at hins
      | str s => simp [insertVal] at hins
      | arr items => simp [insertVal] at hins
  | cons seg rest ih =>
      cases t with
      | obj fields =>
          simp only [insertVal, bind, Except.bind] at hins
          cases hrec : insertVal rest ((lookupA fields seg).getD (.obj [])) v with
          | error e => rw [hrec] at hins; cases hins
          | ok child' =>
              rw [hrec] at hins
              simp only [pure, Except.pure] at hins
              cases hins
              cases p with
              | nil =>
                  simp only [getPath, Option.some.injEq] at hget
                  rw [← hget] at hw
                  simp [JValue.isObj] at hw
              | cons s prest =>
                  simp only [getPath] at hget
                  cases hc : lookupA fields s with
                  | none => rw [hc] at hget; cases hget
                  | some c =>
                      rw [hc] at hget
                      by_cases hs : s = seg
                      · subst hs
                        simp only [getPath, lookupA_insertA_self]
                        rw [hc, Option.getD_some] at hrec
                        exact ih prest c child' hget hrec
                      · simp only [getPath, lookupA_insertA_ne fields seg s child' hs, hc]
                        exact hget
      | null => simp [insertVal] at hins
      | bool b => simp [insertVal] at hins
      | num n => simp [insertVal] at hins
      | str s => simp [insertVal] at hins
      | arr items => simp [insertVal] at hins

theorem getPath_stable_nonempty_obj (p2 p : List String) (t v t' : JValue)
    (g : List (String × JValue)) (hget : getPath t p = some (.obj g)) (hg : g ≠ [])
    (hins : insertVal p2 t v = .ok t') :
    ∃ g2, getPath t' p = some (.obj g2) ∧ g2 ≠ [] := by
  induction p2 generalizing p t t' g with
  | nil =>
      cases t with
      | obj fields =>
          cases fields with
          | nil =>
              cases p with
              | nil =>
                  simp only [getPath, Option.some.injEq] at hget
                  cases hget
                  exact absurd rfl hg
              | cons s prest => simp [getPath, lookupA] at hget
          | cons f frest => simp [insertVal] at hins
      | null => simp [insertVal] at hins
      | bool b => simp [insertVal] at hins
      | num n => simp [insertVal] at hins
      | str s => simp [insertVal] at hins
      | arr items => simp [insertVal] at hins
  | cons seg rest ih =>
      cases t with
      | obj fields =>
          simp only [insertVal, bind, Except.bind] at hins
          cases hrec : insertVal rest ((lookupA fields seg).getD (.obj [])) v with
          | error e => rw [hrec] at hins; cases hins
          | ok child' =>
              rw [hrec] at hins
              simp only [pure, Except.pure] at hins
              cases hins
              cases p with
              | nil =>
                  exact ⟨insertA fields seg child', getPath_nil _, insertA_ne_nil _ _ _⟩
              | cons s prest =>
                  simp only [getPath] at hget
                  cases hc : lookupA fields s with
                  | none => rw [hc] at hget; cases hget
                  | some c =>
                      rw [hc] at hget
                      by_cases hs : s = seg
                      · subst hs
                        rw [hc, Option.getD_some] at hrec
                        obtain ⟨g2, hg2, hg2ne⟩ := ih prest c child' g hget hg hrec
                        refine ⟨g2, ?_, hg2ne⟩
                        simp only [getPath, lookupA_insertA_self]
                        exact hg2
                      · refine ⟨g, ?_, hg⟩
                        simp only [getPath, lookupA_insertA_ne fields seg s child' hs, hc]
                        exact hget
      | null => simp [insertVal] at hins
      | bool b => simp [insertVal] at hins
      | num n => simp [insertVal] at hins
      | str s => simp [insertVal] at hins
      | arr items => simp [insertVal] at hins

/-- The fold at the heart of `serialize`, over already-split paths: the
`for (key, value) in value` loop of `ser.rs` threaded through `insert`. -/
def foldIns (l : List (List String × JValue)) (t : JValue) : Except String JValue :=
  l.foldlM (fun root pv => insertVal pv.1 root pv.2) t

theorem foldIns_cons (hd : List String × JValue) (tl : List (List String × JValue))
    (t : JValue) :
    foldIns (hd :: tl) t =
      match insertVal hd.1 t hd.2 with
      | .error e => .error e
      | .ok t2 => foldIns tl t2 := by
  simp only [foldIns, List.foldlM_cons]
  cases insertVal hd.1 t hd.2 with
  | error e => rfl
  | ok t2 => rfl

theorem foldIns_error_of_nonobj_blocked (p q : List String) (hq : q ≠ [])
    (w : JValue) (hw : w.isObj = false) :
    ∀ (l : List (List String × JValue)) (t : JValue),
      (p ++ q) ∈ l.map Prod.fst → getPath t p = some w →
      ∃ e, foldIns l t = .error e := by
  intro l
  induction l with
  | nil => intro t hmem _; simp at hmem
  | cons hd tl ih =>
      intro t hmem hget
      rw [List.map_cons] at hmem
      rw [foldIns_cons]
      cases hins : insertVal hd.1 t hd.2 with
      | error e => exact ⟨e, rfl⟩
      | ok t2 =>
          rcases List.mem_cons.mp hmem with h1 | h1
          · obtain ⟨e, he⟩ := insertVal_error_of_nonobj_at p q t hd.2 w hget hw hq
            rw [h1] at he
            rw [he] at hins
            cases hins
          · exact ih t2 h1 (getPath_stable_nonobj hd.1 p t hd.2 t2 w hget hw hins)

theorem foldIns_error_of_obj_blocked (p : List String) :
    ∀ (l : List (List String × JValue)) (t : JValue) (g : List (String × JValue)),
      p ∈ l.map Prod.fst → getPath t p = some (.obj g) → g ≠ [] →
      ∃ e, foldIns l t = .error e := by
  intro l
  induction l with
  | nil => intro t g hmem _ _; simp at hmem
  | cons hd tl ih =>
      intro t g hmem hget hg
      rw [List.map_cons] at hmem
      rw [foldIns_cons]
      cases hins : insertVal hd.1 t hd.2 with
      | error e => exact ⟨e, rfl⟩
      | ok t2 =>
          rcases List.mem_cons.mp hmem with h1 | h1
          · obtain ⟨e, he⟩ := insertVal_error_of_nonempty_at p t hd.2 (.obj g) hget
              (by simpa using hg)
            rw [h1] at he
            rw [he] at hins
            cases hins
          · obtain ⟨g2, hg2, hg2ne⟩ :=
              getPath_stable_nonempty_obj hd.1 p t hd.2 t2 g hget hg hins
            exact ih t2 g2 h1 hg2 hg2ne

theorem foldIns_error_of_conflict (p q : List String) (hq : q ≠ []) :
    ∀ (l : List (List String × JValue)) (t : JValue),
      p ∈ l.map Prod.fst → (p ++ q) ∈ l.map Prod.fst →
      (∀ pv ∈ l, pv.2.isObj = false) →
      ∃ e, foldIns l t = .error e := by
  intro l
  induction l with
  | nil => intro t h1 _ _; simp at h1
  | cons hd tl ih =>
      intro t h1 h2 hvals
      rw [List.map_cons] at h1 h2
      rw [foldIns_cons]
      cases hins : insertVal hd.1 t hd.2 with
      | error e => exact ⟨e, rfl⟩
      | ok t2 =>
          by_cases hps : hd.1 = p
          · have hv : hd.2.isObj = false := hvals hd (List.mem_cons_self _ _)
            have hget : getPath t2 p = some hd.2 :=
              insertVal_getPath p t hd.2 t2 (hps ▸ hins)
            have h2tl : (p ++ q) ∈ tl.map Prod.fst := by
              rcases List.mem_cons.mp h2 with hh | hh
              · rw [hps] at hh
                have hlen := congrArg List.length hh
                simp only [List.length_append] at hlen
                have hq0 : q.length = 0 := by omega
                exact absurd (List.length_eq_zero.mp hq0) hq
              · exact hh
            exact foldIns_error_of_nonobj_blocked p q hq hd.2 hv tl t2 h2tl hget
          · by_cases hpq : hd.1 = p ++ q
            · cases q with
              | nil => exact absurd rfl hq
              | cons qs qrest =>
                  obtain ⟨g, hg, hgne⟩ := insertVal_ok_nonempty_obj_at p qs qrest t hd.2 t2
                    (by rw [← hpq]; exact hins)
                  have h1tl : p ∈ tl.map Prod.fst := by
                    rcases List.mem_cons.mp h1 with hh | hh
                    · exact absurd hh.symm hps
                    · exact hh
                  exact foldIns_error_of_obj_blocked p tl t2 g h1tl hg hgne
            · have h1tl : p ∈ tl.map Prod.fst := by
                rcases List.mem_cons.mp h1 with hh | hh
                · exact absurd hh.symm hps
                · exact hh
              have h2tl : (p ++ q) ∈ tl.map Prod.fst := by
                rcases List.mem_cons.mp h2 with hh | hh
                · exact absurd hh.symm hpq
                · exact hh
              exact ih t2 h1tl h2tl (fun pv hpv => hvals pv (List.mem_cons_of_mem _ hpv))

theorem serialize_eq_foldIns : ∀ (m : FlatMap) (t : JValue),
    m.foldlM (fun root kv => insertVal (splitDots kv.1) root kv.2) t =
      foldIns (m.map (fun kv => (splitDots kv.1, kv.2))) t
  | [], _ => rfl
  | kv :: rest, t => by
      rw [List.foldlM_cons, List.map_cons, foldIns_cons]
      cases h : insertVal (splitDots kv.1) t kv.2 with
      | error e => rfl
      | ok t2 => exact serialize_eq_foldIns rest t2

/-- C7. Unflatten fails on genuine conflicts: whenever a flattened map
of non-object leaves contains one key whose dotted path is a proper
prefix of another key's dotted path, `serialize` reports a conflict
error — in either insertion order, so for every iteration order of the
underlying hash map — and never silently merges. -/
theorem c7_unflatten_fails_on_conflict (m : FlatMap) (k1 k2 : String)
    (v1 v2 : JValue) (q : List String)
    (h1 : (k1, v1) ∈ m) (h2 : (k2, v2) ∈ m)
    (hpref : splitDots k2 = splitDots k1 ++ q) (hq : q ≠ [])
    (hvals : ∀ kv ∈ m, kv.2.isObj = false) :
    ∃ e, serialize m = .error e := by
  show ∃ e, m.foldlM (fun root kv => insertVal (splitDots kv.1) root kv.2) (.obj []) =
    .error e
  rw [serialize_eq_foldIns m (.obj [])]
  refine foldIns_error_of_conflict (splitDots k1) q hq _ _ ?_ ?_ ?_
  · exact List.mem_map.mpr ⟨(splitDots k1, v1),
      List.mem_map.mpr ⟨(k1, v1), h1, rfl⟩, rfl⟩
  · exact List.mem_map.mpr ⟨(splitDots k2, v2),
      List.mem_map.mpr ⟨(k2, v2), h2, rfl⟩, hpref ▸ rfl⟩
  · intro pv hpv
    obtain ⟨kv, hkv, hkveq⟩ := List.mem_map.mp hpv
    rw [← hkveq]
    exact hvals kv hkv

/-- C7 (witness). The conflict failure evaluated on the concrete
flattened map holding both `"a"` and `"a.b"`. -/
theorem c7_unflatten_fails_on_conflict_witness :
    (("a", JValue.num 1) ∈ ([("a", .num 1), ("a.b", .num 2)] : FlatMap)) ∧
    (("a.b", JValue.num 2) ∈ ([("a", .num 1), ("a.b", .num 2)] : FlatMap)) ∧
    splitDots "a.b" = splitDots "a" ++ ["b"] ∧
    ∃ e, serialize [("a", .num 1), ("a.b", .num 2)] = .error e :=
  ⟨by decide, by decide, by decide,
    c7_unflatten_fails_on_conflict [("a", .num 1), ("a.b", .num 2)] "a" "a.b"
      (.num 1) (.num 2) ["b"] (by decide) (by decide) (by decide) (by decide)
      (by decide)⟩

end Rachat
